import Mathlib

/-!
# Verification of the gilda core (scorer.py, ner.py) against its specification

Shallow embedding of the two source files of the repository:

* `src/gilda/scorer.py` — the `Match` value type, its six sub-score methods,
  the alignment walk `generate_match`, and `score_string_match`;
* `src/gilda/ner.py` — the `Annot` value type (source name `Annotation`),
  the span-matching scan `annotate`, and the brat export `get_brat`.

Python strings are modelled as `List Char` (`Str`), Python sets as `Finset`,
fallible operations (attribute lookup, out-of-bounds indexing) as
`Option`/`Except`.  External collaborators that live in files not part of the
two sources (`gilda/process.py` normalization primitives, the nltk sentence
splitter and stop-word list, the grounder) are passed in as explicit function
parameters, exactly as the spec describes them as consumed interfaces.
-/

/-- Python `str` modelled as a list of characters. -/
abbrev Str := List Char

/-! ## String prelude: the Python string primitives used by `ner.py` -/

/-- Python whitespace test used by `str.split()` (ASCII whitespace). -/
def pySpace (c : Char) : Bool :=
  c = ' ' ∨ c = '\t' ∨ c = '\n' ∨ c = '\x0d' ∨ c = '\x0b' ∨ c = '\x0c'

/-- Python `s.rstrip('.')`: remove every trailing period. -/
def rstripDot (s : Str) : Str :=
  ((s.reverse.dropWhile (fun c => c = '.')).reverse)

/-- Helper of `pySplit`: the accumulator holds the current word reversed. -/
def pySplitAux : Str → Str → List Str
  | [], acc => if acc = [] then [] else [acc.reverse]
  | c :: rest, acc =>
      if pySpace c then
        if acc = [] then pySplitAux rest []
        else acc.reverse :: pySplitAux rest []
      else pySplitAux rest (c :: acc)

/-- Python `s.split()`: split on runs of whitespace, dropping empty pieces. -/
def pySplit (s : Str) : List Str := pySplitAux s []

/-- Python `' '.join(ws)`. -/
def joinSpace : List Str → Str
  | [] => []
  | [w] => w
  | w :: ws => w ++ ' ' :: joinSpace ws

/-- Python `'\n'.join(ws)`. -/
def joinNewline : List Str → Str
  | [] => []
  | [w] => w
  | w :: ws => w ++ '\n' :: joinNewline ws

/-- The running offset contribution of a word list: sum of (length + 1). -/
def offSum (ws : List Str) : ℕ := (ws.map (fun w => w.length + 1)).sum

/-- The `word_coords` list of `annotate`: starts at `base` and appends
`last + len(word) + 1` for each word (one more entry than words). -/
def wordCoords (base : ℕ) : List Str → List ℕ
  | [] => [base]
  | w :: ws => base :: wordCoords (base + w.length + 1) ws

/-! ## Scorer data model (`scorer.py`) -/

/-- The closed label set returned by the external capitalization classifier
`get_capitalization_pattern` (gilda/process.py, consumed interface). -/
inductive CapPattern
  | all_caps
  | all_lower
  | mixed
  | initial_cap
  | single_cap_letter
  | sentence_initial_cap
  | sentence_initial
deriving DecidableEq, Fintype, Repr

/-- The two sides recorded in `dash_mismatches`. -/
inductive Side
  | query
  | ref
deriving DecidableEq, Fintype, Repr

/-- `gilda.scorer.Match`: the structured difference record produced by
`generate_match`.  Python initializes absent fields to `None`; here the
general path always populates `exact`, `dash_mismatches` and `cap_combos`,
and the two terminal paths leave the unused fields at their neutral values
(`false`, `∅`, `[]`), which is how every score method reads them. -/
structure Match where
  query : Str
  ref : Str
  exact : Bool
  space_mismatch : Bool
  dash_mismatches : Finset Side
  cap_combos : List (CapPattern × CapPattern)
deriving DecidableEq

namespace Match

/-- `Match._query_cases`: the set of query-side labels of `cap_combos`. -/
def query_cases (m : Match) : Finset CapPattern :=
  (m.cap_combos.map Prod.fst).toFinset

/-- `Match._ref_cases`: the set of ref-side labels of `cap_combos`. -/
def ref_cases (m : Match) : Finset CapPattern :=
  (m.cap_combos.map Prod.snd).toFinset

/-- `Match.score_short_abbr`. -/
def score_short_abbr (m : Match) : ℤ :=
  if m.ref.length ≤ 3 ∧
      ((CapPattern.all_caps, CapPattern.all_lower) ∈ m.cap_combos ∨
       (CapPattern.all_lower, CapPattern.all_caps) ∈ m.cap_combos) then 0
  else 1

/-- `Match.score_mixed`. -/
def score_mixed (m : Match) : ℤ :=
  if (CapPattern.mixed, CapPattern.mixed) ∈ m.cap_combos then 0
  else if CapPattern.mixed ∈ m.query_cases ∨ CapPattern.mixed ∈ m.ref_cases then 1
  else 2

/-- `Match.score_exact` (Python `1 if self.exact is True else 0`). -/
def score_exact (m : Match) : ℤ :=
  if m.exact then 1 else 0

/-- `Match.score_acic`. -/
def score_acic (m : Match) : ℤ :=
  if m.exact ∧ m.cap_combos = [] then 2
  else if m.cap_combos.toFinset =
      {(CapPattern.sentence_initial, CapPattern.all_lower)} then 2
  else if m.exact ∧ m.cap_combos.toFinset ⊆
      {(CapPattern.all_caps, CapPattern.sentence_initial_cap),
       (CapPattern.sentence_initial_cap, CapPattern.all_caps)} then 1
  else 0

/-- The query-side total of `Match.score_combo`, with the membership test
`('sentence_initial_cap', 'all_lower') in self.cap_combos` passed in as
`flag`.  Python operator precedence makes the final condition
`(A and (B and C)) or D`. -/
def comboSideQuery (qc : Finset CapPattern) (flag : Bool) : ℤ :=
  (4 - (qc.card : ℤ))
  + (if CapPattern.single_cap_letter ∈ qc ∧
        (CapPattern.all_caps ∈ qc ∨ CapPattern.initial_cap ∈ qc) then 1 else 0)
  + (if (CapPattern.sentence_initial_cap ∈ qc ∧ (qc.card = 1 ∧ flag)) ∨
        ({CapPattern.single_cap_letter, CapPattern.initial_cap,
          CapPattern.all_lower} ∩ qc).Nonempty then 1 else 0)

/-- The ref-side total of `Match.score_combo` (no sentence-initial bonus). -/
def comboSideRef (rc : Finset CapPattern) : ℤ :=
  (4 - (rc.card : ℤ))
  + (if CapPattern.single_cap_letter ∈ rc ∧
        (CapPattern.all_caps ∈ rc ∨ CapPattern.initial_cap ∈ rc) then 1 else 0)

/-- `Match.score_combo`. -/
def score_combo (m : Match) : ℤ :=
  max (comboSideQuery m.query_cases
        ((CapPattern.sentence_initial_cap, CapPattern.all_lower) ∈ m.cap_combos))
      (comboSideRef m.ref_cases)

/-- `Match.score_dash`. -/
def score_dash (m : Match) : ℤ :=
  2 - (m.dash_mismatches.card : ℤ)

end Match

/-! ## `score_string_match` as shipped

The source builds the term list from the attributes `get_short_abbr`,
`get_mixed`, `get_exact`, `get_acic`, `get_combo` and `get_dash` of the
`Match` object, but the class defines only `score_short_abbr`,
`score_mixed`, `score_exact`, `score_acic`, `score_combo` and `score_dash`.
Python attribute lookup is modelled explicitly so that the resulting
`AttributeError` is visible. -/

/-- Python attribute lookup on a `Match` object, restricted to the score
methods the class actually defines. -/
def matchAttr (m : Match) (name : String) : Option (Unit → ℤ) :=
  if name = "score_short_abbr" then some (fun _ => m.score_short_abbr)
  else if name = "score_mixed" then some (fun _ => m.score_mixed)
  else if name = "score_exact" then some (fun _ => m.score_exact)
  else if name = "score_acic" then some (fun _ => m.score_acic)
  else if name = "score_combo" then some (fun _ => m.score_combo)
  else if name = "score_dash" then some (fun _ => m.score_dash)
  else none

/-- Look an attribute up or fail the way CPython reports it. -/
def getAttrOrError (m : Match) (name : String) : Except String (Unit → ℤ) :=
  match matchAttr m name with
  | some f => Except.ok f
  | none => Except.error (name)

/-- `gilda.scorer.score_string_match` as shipped: evaluate the six attributes
named `get_*` with coefficients `[2, 3, 2, 3, 5, 3]` via
`score = coeff * score + fun()`, then divide by `norm - 1`.  The attribute
lookups happen when the term list is built, so the first missing attribute
aborts the call. -/
def score_string_match (m : Match) : Except String ℚ := do
  let f1 ← getAttrOrError m "get_short_abbr"
  let f2 ← getAttrOrError m "get_mixed"
  let f3 ← getAttrOrError m "get_exact"
  let f4 ← getAttrOrError m "get_acic"
  let f5 ← getAttrOrError m "get_combo"
  let f6 ← getAttrOrError m "get_dash"
  let raw : ℤ :=
    3 * (5 * (3 * (2 * (3 * (2 * 0 + f1 ()) + f2 ()) + f3 ()) + f4 ()) + f5 ())
      + f6 ()
  pure ((raw : ℚ) / ((2 * 3 * 2 * 3 * 5 * 3 : ℚ) - 1))

/-- The mixed-radix combination of the six sub-scores with coefficients
`(2, 3, 2, 3, 5, 3)`, i.e. the loop of `score_string_match` unrolled on the
sub-score methods the `Match` class defines. -/
def raw_score (m : Match) : ℤ :=
  3 * (5 * (3 * (2 * (3 * (2 * 0 + m.score_short_abbr) + m.score_mixed)
      + m.score_exact) + m.score_acic) + m.score_combo) + m.score_dash

/-- The normalized score of the composition: `raw / (2*3*2*3*5*3 - 1)`. -/
def score_value (m : Match) : ℚ := (raw_score m : ℚ) / 539


/-- The six sub-scores of a `Match`, most significant first. -/
def subScores (m : Match) : ℤ × ℤ × ℤ × ℤ × ℤ × ℤ :=
  (m.score_short_abbr, m.score_mixed, m.score_exact, m.score_acic,
   m.score_combo, m.score_dash)

/-- `t1` is lexicographically greater than `t2`, most significant first. -/
def LexGt : ℤ × ℤ × ℤ × ℤ × ℤ × ℤ → ℤ × ℤ × ℤ × ℤ × ℤ × ℤ → Prop
  | (a1, b1, c1, d1, e1, f1), (a2, b2, c2, d2, e2, f2) =>
      a2 < a1 ∨ (a1 = a2 ∧ (b2 < b1 ∨ (b1 = b2 ∧ (c2 < c1 ∨ (c1 = c2 ∧
        (d2 < d1 ∨ (d1 = d2 ∧ (e2 < e1 ∨ (e1 = e2 ∧ f2 < f1)))))))))

/-! ## Alignment engine (`generate_match` in `scorer.py`)

The normalization primitives imported from `gilda/process.py` (not part of
the two source files; a consumed interface per the spec) are passed in as a
`TextEnv`. -/

/-- The external text primitives consumed by `generate_match`:
`normalize`, `replace_dashes`, `replace_whitespace` and
`get_capitalization_pattern` from `gilda/process.py`. -/
structure TextEnv where
  normalize : Str → Str
  replace_dashes : Str → Str
  replace_whitespace : Str → Str
  get_capitalization_pattern : Str → Bool → CapPattern

/-- Outcome of the dual-cursor walk of `generate_match`: either the
space-mismatch short circuit, or the accumulated piece lists and the set of
dash-mismatch sides. -/
inductive WalkRes
  | spaceMismatch
  | pieces (qp rp : List Str) (dm : Finset Side)

/-- How a `generate_match` call can fail: the explicit normalization
consistency check (Python `ValueError`), or an out-of-bounds string index
(Python `IndexError` from `''[0]`).  `fuelExhausted` is the sentinel of the
fuel-based loop encoding and is proved unreachable for sufficient fuel. -/
inductive AlignError
  | consistency (q r : Str)
  | indexError
  | fuelExhausted
deriving DecidableEq

/-- Python `pieces[-1] += c`: append a character to the last piece. -/
def appendLast : List Str → Char → List Str
  | [], _ => []
  | [w], c => [w ++ [c]]
  | w :: ws, c => w :: appendLast ws c

/-- The dash block of each loop iteration of `generate_match`: `q`, `r` are
the current first characters (Python `query_suffix[0]`, `ref_suffix[0]`),
`k` is the continuation re-entering the loop. -/
def dashStep (k : Str → Str → List Str → List Str → Finset Side → Except AlignError WalkRes)
    (q r : Char) (qt rt : Str) (qp rp : List Str) (dm : Finset Side) :
    Except AlignError WalkRes :=
  if q = '-' ∧ r = '-' then
    k qt rt (qp ++ [[]]) (rp ++ [[]]) dm
  else if q = '-' then
    k qt (r :: rt) (qp ++ [[]]) (rp ++ [[]]) (insert Side.query dm)
  else if r = '-' then
    k (q :: qt) rt (qp ++ [[]]) (rp ++ [[]]) (insert Side.ref dm)
  else
    k qt rt (appendLast qp q) (appendLast rp r) dm

/-- The dash block as entered right after the synchronized-space branch: the
source evaluates `query_suffix[0]` and `ref_suffix[0]` on the advanced
suffixes, which is an `IndexError` when the space consumption emptied
either suffix. -/
def dashStepChecked
    (k : Str → Str → List Str → List Str → Finset Side → Except AlignError WalkRes)
    (qs rs : Str) (qp rp : List Str) (dm : Finset Side) :
    Except AlignError WalkRes :=
  match qs, rs with
  | [], _ => .error .indexError
  | _ :: _, [] => .error .indexError
  | q :: qt, r :: rt => dashStep k q r qt rt qp rp dm

/-- The `while query_suffix and ref_suffix` loop of `generate_match`. -/
def walkFuel : ℕ → Str → Str → List Str → List Str → Finset Side →
    Except AlignError WalkRes
  | 0, _, _, _, _, _ => .error .fuelExhausted
  | _ + 1, [], _, qp, rp, dm => .ok (.pieces qp rp dm)
  | _ + 1, _ :: _, [], qp, rp, dm => .ok (.pieces qp rp dm)
  | fuel + 1, q :: qt, r :: rt, qp, rp, dm =>
    if q = ' ' ∧ r = ' ' then
      dashStepChecked (walkFuel fuel) qt rt (qp ++ [[]]) (rp ++ [[]]) dm
    else if q = ' ' ∨ r = ' ' then .ok .spaceMismatch
    else dashStep (walkFuel fuel) q r qt rt qp rp dm

/-- The post-walk loop of `generate_match` over the zipped piece pairs:
returns the accumulated `exact` flag and the `cap_combos` list in
left-to-right piece order.  The boolean argument is `first and
beginning_of_sentence` for the head pair. -/
def evalPieces (E : TextEnv) : List (Str × Str) → Bool →
    Bool × List (CapPattern × CapPattern)
  | [], _ => (false, [])
  | (qp, rp) :: rest, fb =>
      let prev := evalPieces E rest false
      if qp = rp ∧ fb = false then (true, prev.2)
      else
        let qcp := E.get_capitalization_pattern qp fb
        let rcp := E.get_capitalization_pattern rp false
        if qcp = rcp ∧ qp = rp then (true, prev.2)
        else (prev.1, (qcp, rcp) :: prev.2)

/-- The preprocessing of `generate_match`:
`replace_dashes(replace_whitespace(s))`. -/
def canon (E : TextEnv) (s : Str) : Str :=
  E.replace_dashes (E.replace_whitespace s)

/-- `gilda.scorer.generate_match`. -/
def generate_match (E : TextEnv) (query ref : Str)
    (beginning_of_sentence : Bool) : Except AlignError Match :=
  if E.normalize query ≠ E.normalize ref then
    .error (.consistency query ref)
  else if ¬ beginning_of_sentence ∧ canon E query = canon E ref then
    .ok { query := canon E query, ref := canon E ref, exact := true,
          space_mismatch := false, dash_mismatches := ∅, cap_combos := [] }
  else
    match walkFuel ((canon E query).length + (canon E ref).length + 1)
        (canon E query) (canon E ref) [[]] [[]] ∅ with
    | .error e => .error e
    | .ok .spaceMismatch =>
        .ok { query := canon E query, ref := canon E ref, exact := false,
              space_mismatch := true, dash_mismatches := ∅, cap_combos := [] }
    | .ok (.pieces qp rp dm) =>
        .ok { query := canon E query, ref := canon E ref,
              exact := (evalPieces E (qp.zip rp) beginning_of_sentence).1,
              space_mismatch := false, dash_mismatches := dm,
              cap_combos := (evalPieces E (qp.zip rp) beginning_of_sentence).2 }

/-! ## Span matcher (`annotate` in `ner.py`) -/

/-- Insert into a descending list, keeping it descending. -/
def insertDesc (x : ℕ) : List ℕ → List ℕ
  | [] => [x]
  | y :: ys => if y ≤ x then x :: y :: ys else y :: insertDesc x ys

/-- Python `sorted(spans, reverse=True)`: the candidate span lengths in
descending order (insertion sort, so that concrete scans evaluate). -/
def sortDesc (l : List ℕ) : List ℕ := l.foldr insertDesc []

/-- The external collaborators consumed by `annotate`: the grounder (its
prefix index and `ground` operation), the sentence splitter, `normalize`
from `gilda/process.py`, and the nltk stop-word set. -/
structure NerEnv (α : Type) where
  prefix_index : Str → List ℕ
  ground : Str → Str → Option (List Str) → Option (List Str) → List α
  sent_split : Str → List Str
  normalize : Str → Str
  stop_words : Str → Bool

/-- `gilda.ner.Annotation` (named `Annot` here): the matched substring, the
scored matches returned by the grounder, and the character offsets. -/
structure Annot (α : Type) where
  text : Str
  matches_ : List α
  start : ℕ
  end_ : ℕ
deriving DecidableEq

/-- The inner word scan of `annotate` for one sentence: `idx` is the loop
variable, `su` the `skip_until` cursor, and the fuel counts the remaining
word positions.  Positions before `su` and stop-word positions are skipped;
otherwise the applicable span lengths from the prefix index are tried
longest first and the first with a non-empty grounder result is emitted.
(The source checks `if not spans: continue` first; an empty candidate set
makes the search below fail, which is the same continuation.) -/
def scanAux (G : NerEnv α) (ctx : Str) (orgs ns : Option (List Str))
    (raw_words : List Str) (coords : List ℕ) (words : List Str) :
    ℕ → ℕ → ℕ → List (Annot α)
  | 0, _, _ => []
  | fuel + 1, idx, su =>
    if idx < su then
      scanAux G ctx orgs ns raw_words coords words fuel (idx + 1) su
    else
      let word := words.getD idx []
      if G.stop_words word then
        scanAux G ctx orgs ns raw_words coords words fuel (idx + 1) su
      else
        let applicable :=
          (G.prefix_index word).filter (fun sp => idx + sp ≤ words.length)
        let desc := sortDesc applicable
        match desc.find? (fun sp =>
            !(G.ground (joinSpace ((raw_words.drop idx).take sp)) ctx orgs ns).isEmpty) with
        | none => scanAux G ctx orgs ns raw_words coords words fuel (idx + 1) su
        | some sp =>
            let txt := joinSpace ((raw_words.drop idx).take sp)
            { text := txt,
              matches_ := G.ground txt ctx orgs ns,
              start := coords.getD idx 0,
              end_ := coords.getD (idx + sp - 1) 0
                        + (raw_words.getD (idx + sp - 1) []).length } ::
              scanAux G ctx orgs ns raw_words coords words fuel (idx + 1) (idx + sp)

/-- Per-sentence processing of `annotate`: strip trailing periods, split
into raw words, build the word coordinate list, normalize each word, then
run the scan. -/
def processSentence (G : NerEnv α) (ctx : Str) (orgs ns : Option (List Str))
    (sentence : Str) (base : ℕ) : List (Annot α) :=
  let raw_words := pySplit (rstripDot sentence)
  let coords := wordCoords base raw_words
  let words := raw_words.map G.normalize
  scanAux G ctx orgs ns raw_words coords words words.length 0 0

/-- The sentence loop of `annotate`, threading the running character offset
(`text_coord`), which advances by `len(sentence) + 1` per sentence. -/
def annotateGo (G : NerEnv α) (ctx : Str) (orgs ns : Option (List Str)) :
    List Str → ℕ → List (Annot α)
  | [], _ => []
  | s :: rest, coord =>
      processSentence G ctx orgs ns s coord ++
        annotateGo G ctx orgs ns rest (coord + s.length + 1)

/-- `gilda.ner.annotate`: the disambiguation context is `context_text` when
supplied, else the full input text. -/
def annotate (G : NerEnv α) (text : Str) (orgs ns : Option (List Str))
    (context_text : Option Str) : List (Annot α) :=
  annotateGo G (context_text.getD text) orgs ns (G.sent_split text) 0

/-! ## Brat export (`get_brat` in `ner.py`) -/

/-- Decimal rendering of a natural number, for the f-string fields. -/
def natStr (n : ℕ) : Str := (toString n).toList

/-- Decimal rendering of an integer, for the f-string fields. -/
def intStr (i : ℤ) : Str := (toString i).toList

/-- The default brat entity type label. -/
def sEntity : Str := "Entity".toList

/-- The curie suffix marker of `get_brat`. -/
def sReadingSystem : Str := "; Reading system: ".toList

/-- The literal of the second brat row. -/
def sAnnotatorNotes : Str := "AnnotatorNotes T".toList

/-- The loop of `get_brat`: two rows per annotation, with the running index
starting at the clamped offset.  `getCurie` models
`scored_match.term.get_curie()` on the opaque `ScoredMatch` values;
`annotation.matches[0]` on an empty match list is a Python `IndexError`,
modelled as `none`. -/
def bratRows (getCurie : α → Str) (entity_type : Str) (include_text : Bool) :
    ℤ → List (Annot α) → Option (List Str)
  | _, [] => some []
  | idx, a :: rest =>
    match a.matches_.head? with
    | none => none
    | some m =>
        let curie := getCurie m ++
          (if entity_type ≠ sEntity then sReadingSystem ++ entity_type else [])
        let row1 := 'T' :: intStr idx ++ '\t' :: entity_type ++ ' ' ::
          natStr a.start ++ ' ' :: natStr a.end_ ++
          (if include_text then '\t' :: a.text else [])
        let row2 := '#' :: intStr idx ++ '\t' :: sAnnotatorNotes ++
          intStr idx ++ '\t' :: curie
        (bratRows getCurie entity_type include_text (idx + 1) rest).map
          (fun rows => row1 :: row2 :: rows)

/-- `gilda.ner.get_brat`: `ix_offset = max(1, ix_offset)`, then all rows
joined by a single newline with one trailing newline appended. -/
def get_brat (getCurie : α → Str) (annotations : List (Annot α))
    (entity_type : Str) (ix_offset : ℤ) (include_text : Bool) : Option Str :=
  (bratRows getCurie entity_type include_text (max 1 ix_offset) annotations).map
    (fun rows => joinNewline rows ++ ['\n'])

/-! ## Spec-modelled text primitives

`gilda/process.py` is not among the source files; the following concrete
instances of its interface are modelled from the spec and are used only to
build concrete scenarios (counterexamples and witnesses). -/

/-- Helper of `replace_whitespace_spec`: the flag records whether the
previous character was whitespace. -/
def collapseWsAux : Str → Bool → Str
  | [], _ => []
  | c :: rest, prevWs =>
      if pySpace c then
        if prevWs then collapseWsAux rest true
        else ' ' :: collapseWsAux rest true
      else c :: collapseWsAux rest false

/-- Modelled from the spec: `replace_whitespace` of gilda/process.py (not in
src), "collapse any run of whitespace in each string to a single space". -/
def replace_whitespace_spec (s : Str) : Str := collapseWsAux s false

/-- Dash-like characters. -/
def isDashChar (c : Char) : Bool := c = '-' ∨ c = '–' ∨ c = '—'

/-- Modelled from the spec: `replace_dashes` of gilda/process.py (not in
src), "canonicalize all dash-like characters (hyphen, en-dash, em-dash,
etc.) to one canonical dash character". -/
def replace_dashes_spec (s : Str) : Str :=
  s.map (fun c => if isDashChar c then '-' else c)

/-- Modelled from the spec: `get_capitalization_pattern` of gilda/process.py
(not in src), the "capitalization classifier" with the closed label set of
§6; the sentence-initial labels require the flag. -/
def capPatternSpec (w : Str) (bos : Bool) : CapPattern :=
  if w.all Char.isLower then
    (if bos then CapPattern.sentence_initial else CapPattern.all_lower)
  else if w.length = 1 ∧ w.all Char.isUpper then CapPattern.single_cap_letter
  else if w.all Char.isUpper then CapPattern.all_caps
  else if (w.head?.elim false Char.isUpper) ∧ w.tail.all Char.isLower then
    (if bos then CapPattern.sentence_initial_cap else CapPattern.initial_cap)
  else CapPattern.mixed

/-- Modelled from the spec: `normalize` of gilda/process.py (not in src),
"a case/punctuation-insensitive normalization" (case folding plus
dash/whitespace standardization). -/
def normalize_spec (s : Str) : Str :=
  replace_dashes_spec (replace_whitespace_spec (s.map Char.toLower))

/-- The concrete `TextEnv` assembled from the spec-modelled primitives. -/
def textEnvSpec : TextEnv :=
  { normalize := normalize_spec,
    replace_dashes := replace_dashes_spec,
    replace_whitespace := replace_whitespace_spec,
    get_capitalization_pattern := capPatternSpec }

/-- The canonicalized string does not end with a space (in particular the
empty string qualifies). -/
def noTrailingSpace (s : Str) : Prop := s.getLast? ≠ some ' '

/-! ## Concrete scenario instances for counterexamples and witnesses -/

/-- Lower-casing, standing in for the external `normalize` in the concrete
scan scenarios. -/
def lowerStr (s : Str) : Str := s.map Char.toLower

/-- The preprocessing step claim C7 describes: strip exactly one trailing
period if present (spec wording, for comparison with `rstripDot`). -/
def stripOneDot (s : Str) : Str :=
  if s.getLast? = some '.' then s.dropLast else s

/-- The spec §8 scenario text. -/
def tMEK : Str := "MEK phosphorylates ERK".toList

/-- A dictionary index with the single-word keys `mek` and `erk` and a
grounder resolving exactly the spans `MEK` and `ERK`. -/
def E1 : NerEnv ℕ :=
  { prefix_index := fun w =>
      if w = "mek".toList then [1] else if w = "erk".toList then [1] else [],
    ground := fun span _ _ _ =>
      if span = "MEK".toList then [1]
      else if span = "ERK".toList then [2] else [],
    sent_split := fun t => [t],
    normalize := lowerStr,
    stop_words := fun _ => false }

/-- Scenario text with a stop word inside a three-word span. -/
def tAlpha : Str := "alpha of beta".toList

/-- A dictionary index registering a three-word span at `alpha`, with `of`
a stop word. -/
def E2 : NerEnv ℕ :=
  { prefix_index := fun w => if w = "alpha".toList then [3] else [],
    ground := fun span _ _ _ =>
      if span = "alpha of beta".toList then [1] else [],
    sent_split := fun t => [t],
    normalize := lowerStr,
    stop_words := fun w => w = "of".toList }

/-- The crash input of the alignment walk: a word followed by a space. -/
def sASpace : Str := "a ".toList

/-- A second crash input for the consistency-contract claim. -/
def sXSpace : Str := "x ".toList

def matchExactMEK : Match :=
  ⟨"MEK".toList, "MEK".toList, true, false, ∅, []⟩

def matchCaseFlip : Match :=
  ⟨"mek".toList, "MEK".toList, false, false, ∅,
   [(CapPattern.all_lower, CapPattern.all_caps)]⟩

/-- A space-free input for the alignment totality witnesses. -/
def sAB : Str := "ab".toList

theorem raw_score_eq (m : Match) :
    raw_score m = 270 * m.score_short_abbr + 90 * m.score_mixed
      + 45 * m.score_exact + 15 * m.score_acic + 3 * m.score_combo
      + m.score_dash := by
  unfold raw_score; ring

namespace Match

theorem score_short_abbr_mem (m : Match) :
    m.score_short_abbr = 0 ∨ m.score_short_abbr = 1 := by
  unfold score_short_abbr; split <;> simp

theorem score_mixed_bounds (m : Match) : 0 ≤ m.score_mixed ∧ m.score_mixed ≤ 2 := by
  unfold score_mixed; split
  · omega
  · split <;> omega

theorem score_exact_mem (m : Match) : m.score_exact = 0 ∨ m.score_exact = 1 := by
  unfold score_exact; split <;> simp

theorem score_acic_bounds (m : Match) : 0 ≤ m.score_acic ∧ m.score_acic ≤ 2 := by
  unfold score_acic; split
  · omega
  · split
    · omega
    · split <;> omega

theorem score_dash_bounds (m : Match) : 0 ≤ m.score_dash ∧ m.score_dash ≤ 2 := by
  unfold score_dash
  have h := Finset.card_le_univ m.dash_mismatches
  have h2 : Fintype.card Side = 2 := rfl
  rw [h2] at h
  omega

set_option maxRecDepth 4000 in
theorem comboSideQuery_ge :
    ∀ (qc : Finset CapPattern) (flag : Bool), -1 ≤ comboSideQuery qc flag := by decide

set_option maxRecDepth 4000 in
theorem comboSideQuery_le :
    ∀ (qc : Finset CapPattern) (flag : Bool), comboSideQuery qc flag ≤ 4 := by decide

set_option maxRecDepth 4000 in
theorem comboSideRef_le : ∀ rc : Finset CapPattern, comboSideRef rc ≤ 4 := by decide

theorem score_combo_bounds (m : Match) : -1 ≤ m.score_combo ∧ m.score_combo ≤ 4 := by
  unfold score_combo
  constructor
  · exact le_trans (comboSideQuery_ge _ _) (le_max_left _ _)
  · exact max_le (comboSideQuery_le _ _) (comboSideRef_le _)

end Match

namespace Match

set_option maxRecDepth 4000 in
theorem comboSideQuery_nonneg_of_no_mixed :
    ∀ (qc : Finset CapPattern) (flag : Bool), CapPattern.mixed ∉ qc →
      0 ≤ comboSideQuery qc flag := by decide

set_option maxRecDepth 4000 in
theorem comboSideQuery_le_of_mixed :
    ∀ (qc : Finset CapPattern) (flag : Bool), CapPattern.mixed ∈ qc →
      comboSideQuery qc flag ≤ 3 := by decide

set_option maxRecDepth 4000 in
theorem comboSideRef_le_of_mixed :
    ∀ rc : Finset CapPattern, CapPattern.mixed ∈ rc → comboSideRef rc ≤ 3 := by decide

set_option maxRecDepth 4000 in
theorem comboSideQuery_of_subset_acic :
    ∀ qc : Finset CapPattern, qc.Nonempty →
      qc ⊆ {CapPattern.all_caps, CapPattern.sentence_initial_cap} →
      2 ≤ comboSideQuery qc false ∧ comboSideQuery qc false ≤ 3 := by decide

set_option maxRecDepth 4000 in
theorem comboSideRef_of_subset_acic :
    ∀ rc : Finset CapPattern, rc.Nonempty →
      rc ⊆ {CapPattern.all_caps, CapPattern.sentence_initial_cap} →
      2 ≤ comboSideRef rc ∧ comboSideRef rc ≤ 3 := by decide

theorem mem_query_cases {m : Match} {x : CapPattern} :
    x ∈ m.query_cases ↔ ∃ p ∈ m.cap_combos, p.1 = x := by
  simp [query_cases, List.mem_toFinset]

theorem mem_ref_cases {m : Match} {x : CapPattern} :
    x ∈ m.ref_cases ↔ ∃ p ∈ m.cap_combos, p.2 = x := by
  simp [ref_cases, List.mem_toFinset]

end Match

namespace Match

theorem query_cases_singleton_si {m : Match}
    (h : m.cap_combos.toFinset =
      {(CapPattern.sentence_initial, CapPattern.all_lower)}) :
    m.query_cases = {CapPattern.sentence_initial} := by
  ext x
  simp only [mem_query_cases, Finset.mem_singleton]
  constructor
  · rintro ⟨p, hp, rfl⟩
    have hp2 : p ∈ m.cap_combos.toFinset := List.mem_toFinset.mpr hp
    rw [h, Finset.mem_singleton] at hp2
    subst hp2; rfl
  · rintro rfl
    have h1 : (CapPattern.sentence_initial, CapPattern.all_lower) ∈
        m.cap_combos.toFinset := by
      rw [h]; exact Finset.mem_singleton_self _
    exact ⟨_, List.mem_toFinset.mp h1, rfl⟩

theorem ref_cases_singleton_al {m : Match}
    (h : m.cap_combos.toFinset =
      {(CapPattern.sentence_initial, CapPattern.all_lower)}) :
    m.ref_cases = {CapPattern.all_lower} := by
  ext x
  simp only [mem_ref_cases, Finset.mem_singleton]
  constructor
  · rintro ⟨p, hp, rfl⟩
    have hp2 : p ∈ m.cap_combos.toFinset := List.mem_toFinset.mpr hp
    rw [h, Finset.mem_singleton] at hp2
    subst hp2; rfl
  · rintro rfl
    have h1 : (CapPattern.sentence_initial, CapPattern.all_lower) ∈
        m.cap_combos.toFinset := by
      rw [h]; exact Finset.mem_singleton_self _
    exact ⟨_, List.mem_toFinset.mp h1, rfl⟩

/-- If `cap_combos` has set exactly `{(sentence_initial, all_lower)}` then
`score_combo` is exactly 3 and no `mixed` label occurs. -/
theorem combo_of_si_al {m : Match}
    (h : m.cap_combos.toFinset =
      {(CapPattern.sentence_initial, CapPattern.all_lower)}) :
    m.score_combo = 3 ∧ m.score_mixed = 2 := by
  have hq := query_cases_singleton_si h
  have hr := ref_cases_singleton_al h
  have hflag : (CapPattern.sentence_initial_cap, CapPattern.all_lower) ∉
      m.cap_combos := by
    intro hmem
    have h1 : (CapPattern.sentence_initial_cap, CapPattern.all_lower) ∈
        m.cap_combos.toFinset := List.mem_toFinset.mpr hmem
    rw [h, Finset.mem_singleton] at h1
    exact absurd h1 (by decide)
  constructor
  · unfold score_combo
    rw [hq, hr]
    rw [decide_eq_false hflag]
    decide
  · unfold score_mixed
    have hmm : (CapPattern.mixed, CapPattern.mixed) ∉ m.cap_combos := by
      intro hmem
      have h1 : (CapPattern.mixed, CapPattern.mixed) ∈ m.cap_combos.toFinset :=
        List.mem_toFinset.mpr hmem
      rw [h, Finset.mem_singleton] at h1
      exact absurd h1 (by decide)
    rw [if_neg hmm, if_neg]
    rw [hq, hr]
    decide

theorem combos_empty_cases {m : Match} (h : m.cap_combos = []) :
    m.query_cases = ∅ ∧ m.ref_cases = ∅ := by
  constructor <;> simp [query_cases, ref_cases, h]

/-- `score_acic = 2` forces `score_combo ≥ 3`. -/
theorem acic_two_combo (m : Match) (h : m.score_acic = 2) : 3 ≤ m.score_combo := by
  unfold score_acic at h
  split_ifs at h with h1 h2 h3
  · obtain ⟨hq, hr⟩ := combos_empty_cases h1.2
    unfold score_combo
    rw [hq, hr, decide_eq_false (by simp [h1.2])]
    decide
  · exact le_of_eq (combo_of_si_al h2).1.symm
  · omega
  · omega

/-- `score_acic = 1` forces `2 ≤ score_combo ≤ 3`. -/
theorem acic_one_combo (m : Match) (h : m.score_acic = 1) :
    2 ≤ m.score_combo ∧ m.score_combo ≤ 3 := by
  unfold score_acic at h
  split_ifs at h with h1 h2 h3
  · omega
  · omega
  · -- exact with combos a nonempty subset of the two acic pairs
    obtain ⟨hex, hsub⟩ := h3
    have hne : m.cap_combos ≠ [] := by
      intro hnil; exact h1 ⟨hex, hnil⟩
    obtain ⟨p0, hp0⟩ := List.exists_mem_of_ne_nil _ hne
    have hqsub : m.query_cases ⊆
        {CapPattern.all_caps, CapPattern.sentence_initial_cap} := by
      intro x hx
      obtain ⟨p, hp, rfl⟩ := mem_query_cases.mp hx
      have hpT := hsub (List.mem_toFinset.mpr hp)
      simp only [Finset.mem_insert, Finset.mem_singleton] at hpT
      rcases hpT with rfl | rfl <;> simp
    have hrsub : m.ref_cases ⊆
        {CapPattern.all_caps, CapPattern.sentence_initial_cap} := by
      intro x hx
      obtain ⟨p, hp, rfl⟩ := mem_ref_cases.mp hx
      have hpT := hsub (List.mem_toFinset.mpr hp)
      simp only [Finset.mem_insert, Finset.mem_singleton] at hpT
      rcases hpT with rfl | rfl <;> simp
    have hqne : m.query_cases.Nonempty :=
      ⟨p0.1, mem_query_cases.mpr ⟨p0, hp0, rfl⟩⟩
    have hrne : m.ref_cases.Nonempty :=
      ⟨p0.2, mem_ref_cases.mpr ⟨p0, hp0, rfl⟩⟩
    have hflag : (CapPattern.sentence_initial_cap, CapPattern.all_lower) ∉
        m.cap_combos := by
      intro hmem
      have hpT := hsub (List.mem_toFinset.mpr hmem)
      simp only [Finset.mem_insert, Finset.mem_singleton] at hpT
      rcases hpT with h' | h' <;> exact absurd h' (by decide)
    have hqb := comboSideQuery_of_subset_acic m.query_cases hqne hqsub
    have hrb := comboSideRef_of_subset_acic m.ref_cases hrne hrsub
    unfold score_combo
    rw [decide_eq_false hflag]
    constructor
    · exact le_max_of_le_left hqb.1
    · exact max_le hqb.2 hrb.2
  · omega

end Match

namespace Match

/-- `score_mixed = 2` forces `score_combo ≥ 0`. -/
theorem mixed_two_combo (m : Match) (h : m.score_mixed = 2) : 0 ≤ m.score_combo := by
  unfold score_mixed at h
  split_ifs at h with h1 h2
  · omega
  · omega
  · push_neg at h2
    unfold score_combo
    exact le_trans (comboSideQuery_nonneg_of_no_mixed _ _ h2.1) (le_max_left _ _)

/-- `score_mixed = 0` forces `score_combo ≤ 3`. -/
theorem mixed_zero_combo (m : Match) (h : m.score_mixed = 0) : m.score_combo ≤ 3 := by
  unfold score_mixed at h
  split_ifs at h with h1
  · have hq : CapPattern.mixed ∈ m.query_cases :=
      mem_query_cases.mpr ⟨_, h1, rfl⟩
    have hr : CapPattern.mixed ∈ m.ref_cases :=
      mem_ref_cases.mpr ⟨_, h1, rfl⟩
    unfold score_combo
    exact max_le (comboSideQuery_le_of_mixed _ _ hq) (comboSideRef_le_of_mixed _ hr)
  · omega
  · omega

/-- `score_short_abbr = 0` forces `score_acic = 0`: the all-caps/all-lower
flip pair rules out each of the first three `score_acic` branches. -/
theorem short_abbr_zero_acic (m : Match) (h : m.score_short_abbr = 0) :
    m.score_acic = 0 := by
  unfold score_short_abbr at h
  split_ifs at h with h1
  · obtain ⟨-, hflip⟩ := h1
    have hne : m.cap_combos ≠ [] := by
      rcases hflip with hmem | hmem <;> exact List.ne_nil_of_mem hmem
    unfold score_acic
    rw [if_neg, if_neg, if_neg]
    · rintro ⟨-, hsub⟩
      rcases hflip with hmem | hmem <;>
      · have hpT := hsub (List.mem_toFinset.mpr hmem)
        simp only [Finset.mem_insert, Finset.mem_singleton] at hpT
        rcases hpT with h' | h' <;> exact absurd h' (by decide)
    · intro hset
      rcases hflip with hmem | hmem <;>
      · have hpT := List.mem_toFinset.mpr hmem
        rw [hset, Finset.mem_singleton] at hpT
        exact absurd hpT (by decide)
    · rintro ⟨-, hnil⟩; exact hne hnil
  · omega

/-- When the match is not exact, `score_acic` is 0 or 2, and 2 only through
the `{(sentence_initial, all_lower)}` branch. -/
theorem not_exact_acic (m : Match) (he : m.exact = false) :
    m.score_acic = 0 ∨
      (m.score_acic = 2 ∧ m.score_combo = 3 ∧ m.score_mixed = 2) := by
  unfold score_acic
  split_ifs with h1 h2 h3
  · rw [he] at h1; exact absurd h1.1 (by simp)
  · right
    exact ⟨rfl, (combo_of_si_al h2).1, (combo_of_si_al h2).2⟩
  · rw [he] at h3; exact absurd h3.1 (by simp)
  · left; rfl

end Match

theorem score_exact_eq_zero {m : Match} (h : m.score_exact = 0) : m.exact = false := by
  unfold Match.score_exact at h
  split_ifs at h with h1
  · omega
  · simpa using h1

theorem raw_score_lex (m1 m2 : Match)
    (h : LexGt (subScores m1) (subScores m2)) :
    raw_score m2 < raw_score m1 := by
  rw [raw_score_eq, raw_score_eq]
  have hsa1 : 0 ≤ m1.score_short_abbr ∧ m1.score_short_abbr ≤ 1 := by
    rcases Match.score_short_abbr_mem m1 with h | h <;> omega
  have hsa2 : 0 ≤ m2.score_short_abbr ∧ m2.score_short_abbr ≤ 1 := by
    rcases Match.score_short_abbr_mem m2 with h | h <;> omega
  have hmx1 := Match.score_mixed_bounds m1
  have hmx2 := Match.score_mixed_bounds m2
  have hex1 : 0 ≤ m1.score_exact ∧ m1.score_exact ≤ 1 := by
    rcases Match.score_exact_mem m1 with h | h <;> omega
  have hex2 : 0 ≤ m2.score_exact ∧ m2.score_exact ≤ 1 := by
    rcases Match.score_exact_mem m2 with h | h <;> omega
  have hac1 := Match.score_acic_bounds m1
  have hac2 := Match.score_acic_bounds m2
  have hcb1 := Match.score_combo_bounds m1
  have hcb2 := Match.score_combo_bounds m2
  have hda1 := Match.score_dash_bounds m1
  have hda2 := Match.score_dash_bounds m2
  unfold LexGt subScores at h
  rcases h with h | ⟨hae, h⟩
  · -- short-abbr digit: m2 has the flip penalty, so its acic digit is 0
    have ha2 : m2.score_short_abbr = 0 := by omega
    have hz := Match.short_abbr_zero_acic m2 ha2
    linarith
  rcases h with h | ⟨hbe, h⟩
  · -- mixed digit
    have hcases : (m1.score_mixed = 1 ∧ m2.score_mixed = 0) ∨
        (m1.score_mixed = 2 ∧ m2.score_mixed = 0) ∨
        (m1.score_mixed = 2 ∧ m2.score_mixed = 1) := by omega
    rcases hcases with ⟨h1, h2⟩ | ⟨h1, h2⟩ | ⟨h1, h2⟩
    · have hc2 := Match.mixed_zero_combo m2 h2
      linarith
    · have hc2 := Match.mixed_zero_combo m2 h2
      have hc1 := Match.mixed_two_combo m1 h1
      linarith
    · have hc1 := Match.mixed_two_combo m1 h1
      linarith
  rcases h with h | ⟨hce, h⟩
  · -- exact digit
    have he2 : m2.score_exact = 0 := by omega
    rcases Match.not_exact_acic m2 (score_exact_eq_zero he2) with hz | ⟨hz, hc2, hm2⟩
    · linarith
    · have hm1 : m1.score_mixed = 2 := by omega
      have hc1 := Match.mixed_two_combo m1 hm1
      linarith
  rcases h with h | ⟨hde, h⟩
  · -- acic digit
    have hcases : (m1.score_acic = 1 ∧ m2.score_acic = 0) ∨
        (m1.score_acic = 2 ∧ m2.score_acic = 1) ∨
        (m1.score_acic = 2 ∧ m2.score_acic = 0) := by omega
    rcases hcases with ⟨h1, h2⟩ | ⟨h1, h2⟩ | ⟨h1, h2⟩
    · have hc1 := Match.acic_one_combo m1 h1
      linarith
    · have hc1 := Match.acic_two_combo m1 h1
      have hc2 := Match.acic_one_combo m2 h2
      linarith
    · have hc1 := Match.acic_two_combo m1 h1
      linarith
  rcases h with h | ⟨hee, h⟩
  · -- combo digit
    linarith
  · -- dash digit
    linarith

theorem score_value_lt_of_raw {m1 m2 : Match} (h : raw_score m2 < raw_score m1) :
    score_value m2 < score_value m1 := by
  unfold score_value
  have hc : (raw_score m2 : ℚ) < (raw_score m1 : ℚ) := Int.cast_lt.mpr h
  gcongr


theorem noTrailingSpace_tail {c : Char} {l : Str} (h : noTrailingSpace (c :: l)) :
    noTrailingSpace l := by
  cases l with
  | nil => simp [noTrailingSpace]
  | cons x xs => rwa [noTrailingSpace, ← List.getLast?_cons_cons (a := c)]

theorem walkFuel_ok : ∀ (fuel : ℕ) (qs rs : Str) (qp rp : List Str) (dm : Finset Side),
    qs.length + rs.length < fuel → noTrailingSpace qs → noTrailingSpace rs →
    ∃ res, walkFuel fuel qs rs qp rp dm = .ok res := by
  intro fuel
  induction fuel with
  | zero => intro qs rs qp rp dm hlen _ _; omega
  | succ fuel ih =>
    intro qs rs qp rp dm hlen hq hr
    match qs, rs with
    | [], rs => exact ⟨_, rfl⟩
    | q :: qt, [] => exact ⟨_, rfl⟩
    | q :: qt, r :: rt =>
      simp only [walkFuel]
      split_ifs with hsp hsp2
      · -- synchronized space: the tails are nonempty since neither string
        -- ends with a space
        match hqt : qt, hrt : rt with
        | [], _ =>
          rw [hsp.1] at hq
          exact absurd rfl hq
        | _ :: _, [] =>
          rw [hsp.2] at hr
          exact absurd rfl hr
        | q2 :: qt2, r2 :: rt2 =>
          have hq2 := noTrailingSpace_tail hq
          have hr2 := noTrailingSpace_tail hr
          simp only [List.length_cons] at hlen
          simp only [dashStepChecked]
          unfold dashStep
          split_ifs with hd1 hd2 hd3
          · exact ih _ _ _ _ _ (by omega) (noTrailingSpace_tail hq2)
              (noTrailingSpace_tail hr2)
          · exact ih _ _ _ _ _ (by simp only [List.length_cons]; omega)
              (noTrailingSpace_tail hq2) hr2
          · exact ih _ _ _ _ _ (by simp only [List.length_cons]; omega)
              hq2 (noTrailingSpace_tail hr2)
          · exact ih _ _ _ _ _ (by omega) (noTrailingSpace_tail hq2)
              (noTrailingSpace_tail hr2)
      · exact ⟨_, rfl⟩
      · simp only [List.length_cons] at hlen
        unfold dashStep
        split_ifs with hd1 hd2 hd3
        · exact ih _ _ _ _ _ (by omega) (noTrailingSpace_tail hq)
            (noTrailingSpace_tail hr)
        · exact ih _ _ _ _ _ (by simp only [List.length_cons]; omega)
            (noTrailingSpace_tail hq) hr
        · exact ih _ _ _ _ _ (by simp only [List.length_cons]; omega)
            hq (noTrailingSpace_tail hr)
        · exact ih _ _ _ _ _ (by omega) (noTrailingSpace_tail hq)
            (noTrailingSpace_tail hr)

theorem walkFuel_no_consistency : ∀ (fuel : ℕ) (qs rs : Str) (qp rp : List Str)
    (dm : Finset Side) (a b : Str),
    walkFuel fuel qs rs qp rp dm ≠ .error (.consistency a b) := by
  intro fuel
  induction fuel with
  | zero => intro qs rs qp rp dm a b; simp [walkFuel]
  | succ fuel ih =>
    intro qs rs qp rp dm a b
    match qs, rs with
    | [], rs => simp [walkFuel]
    | q :: qt, [] => simp [walkFuel]
    | q :: qt, r :: rt =>
      simp only [walkFuel]
      split_ifs with hsp hsp2
      · match qt, rt with
        | [], _ => simp [dashStepChecked]
        | _ :: _, [] => simp [dashStepChecked]
        | q2 :: qt2, r2 :: rt2 =>
          simp only [dashStepChecked]
          unfold dashStep
          split_ifs <;> apply ih
      · simp
      · unfold dashStep
        split_ifs <;> apply ih

/-- On normalization-equal inputs whose canonicalized forms do not end with
a space, `generate_match` returns a `Match`. -/
theorem generate_match_total (E : TextEnv) (query ref : Str)
    (beginning_of_sentence : Bool)
    (hnorm : E.normalize query = E.normalize ref)
    (hq : noTrailingSpace (canon E query))
    (hr : noTrailingSpace (canon E ref)) :
    ∃ m, generate_match E query ref beginning_of_sentence = .ok m := by
  unfold generate_match
  rw [if_neg (not_not_intro hnorm)]
  by_cases hfast : ¬ beginning_of_sentence ∧ canon E query = canon E ref
  · rw [if_pos hfast]
    exact ⟨_, rfl⟩
  · rw [if_neg hfast]
    obtain ⟨res, hres⟩ := walkFuel_ok
      ((canon E query).length + (canon E ref).length + 1)
      (canon E query) (canon E ref) [[]] [[]] ∅ (by omega) hq hr
    rw [hres]
    cases res with
    | spaceMismatch => exact ⟨_, rfl⟩
    | pieces qp rp dm => exact ⟨_, rfl⟩

/-- `generate_match` reports the consistency failure exactly when the
normalized forms differ. -/
theorem generate_match_consistency_iff (E : TextEnv) (query ref : Str)
    (bos : Bool) :
    generate_match E query ref bos = .error (.consistency query ref) ↔
      E.normalize query ≠ E.normalize ref := by
  constructor
  · intro h
    by_cases hn : E.normalize query ≠ E.normalize ref
    · exact hn
    · exfalso
      unfold generate_match at h
      rw [if_neg hn] at h
      by_cases hfast : ¬ bos ∧ canon E query = canon E ref
      · rw [if_pos hfast] at h
        exact absurd h (by simp)
      · rw [if_neg hfast] at h
        cases hw : walkFuel ((canon E query).length + (canon E ref).length + 1)
            (canon E query) (canon E ref) [[]] [[]] ∅ with
        | error e =>
          rw [hw] at h
          cases e with
          | consistency a b =>
            exact walkFuel_no_consistency _ _ _ _ _ _ a b hw
          | indexError => exact absurd h (by simp)
          | fuelExhausted => exact absurd h (by simp)
        | ok res =>
          rw [hw] at h
          cases res with
          | spaceMismatch => exact absurd h (by simp)
          | pieces qp rp dm => exact absurd h (by simp)
  · intro hn
    unfold generate_match
    rw [if_pos hn]

/-! ## Word-coordinate and split lemmas for the span matcher -/

theorem offSum_cons (w : Str) (ws : List Str) :
    offSum (w :: ws) = w.length + 1 + offSum ws := by
  simp [offSum]

theorem offSum_append (xs ys : List Str) :
    offSum (xs ++ ys) = offSum xs + offSum ys := by
  simp [offSum]

theorem wordCoords_getD : ∀ (ws : List Str) (base i : ℕ), i ≤ ws.length →
    (wordCoords base ws).getD i 0 = base + offSum (ws.take i) := by
  intro ws
  induction ws with
  | nil =>
    intro base i hi
    have h0 : i = 0 := by simpa using hi
    subst h0
    simp [wordCoords, offSum]
  | cons w ws ih =>
    intro base i hi
    cases i with
    | zero => simp [wordCoords, offSum]
    | succ i =>
      simp only [wordCoords, List.getD_cons_succ, List.take_succ_cons, offSum_cons]
      rw [ih _ i (by simpa using hi)]
      omega

theorem offSum_take_le : ∀ (ws : List Str) (i j : ℕ), i ≤ j →
    offSum (ws.take i) ≤ offSum (ws.take j) := by
  intro ws
  induction ws with
  | nil => intro i j _; simp
  | cons w ws ih =>
    intro i j hij
    cases i with
    | zero => simp [offSum]
    | succ i =>
      cases j with
      | zero => omega
      | succ j =>
        simp only [List.take_succ_cons, offSum_cons]
        have := ih i j (by omega)
        omega

theorem wordCoords_mono (ws : List Str) (base : ℕ) (i j : ℕ)
    (hij : i ≤ j) (hj : j ≤ ws.length) :
    (wordCoords base ws).getD i 0 ≤ (wordCoords base ws).getD j 0 := by
  rw [wordCoords_getD ws base i (le_trans hij hj), wordCoords_getD ws base j hj]
  have := offSum_take_le ws i j hij
  omega

theorem wordCoords_shift (ws : List Str) (base : ℕ) (i k : ℕ)
    (h : i + k ≤ ws.length) :
    (wordCoords base ws).getD (i + k) 0 =
      (wordCoords base ws).getD i 0 + offSum ((ws.drop i).take k) := by
  rw [wordCoords_getD ws base (i + k) h, wordCoords_getD ws base i (by omega)]
  rw [List.take_add]
  rw [offSum_append]
  omega

theorem joinSpace_length : ∀ ws : List Str, ws ≠ [] →
    (joinSpace ws).length + 1 = offSum ws := by
  intro ws
  induction ws with
  | nil => intro h; exact absurd rfl h
  | cons w ws ih =>
    intro _
    cases ws with
    | nil => simp [joinSpace, offSum]
    | cons w2 ws2 =>
      have := ih (by simp)
      simp only [joinSpace, List.length_append, List.length_cons, offSum_cons] at *
      omega

theorem offSum_pySplitAux : ∀ (s : Str) (acc : Str),
    offSum (pySplitAux s acc) ≤ s.length + acc.length + 1 := by
  intro s
  induction s with
  | nil =>
    intro acc
    by_cases h : acc = []
    · simp [pySplitAux, h, offSum]
    · simp only [pySplitAux, if_neg h, offSum, List.map_cons, List.map_nil,
        List.sum_cons, List.sum_nil, List.length_reverse]
      omega
  | cons c rest ih =>
    intro acc
    simp only [pySplitAux]
    split_ifs with h1 h2
    · have := ih []
      simp only [List.length_nil] at this
      simp only [List.length_cons]
      omega
    · rw [offSum_cons]
      have := ih []
      simp only [List.length_nil, List.length_reverse, List.length_cons] at *
      omega
    · have := ih (c :: acc)
      simp only [List.length_cons] at *
      omega

theorem offSum_pySplit (s : Str) : offSum (pySplit s) ≤ s.length + 1 := by
  have := offSum_pySplitAux s []
  simpa [pySplit] using this

theorem rstripDot_length_le (s : Str) : (rstripDot s).length ≤ s.length := by
  unfold rstripDot
  have h := (List.dropWhile_sublist (l := s.reverse) (fun c => c = '.')).length_le
  simpa using h

theorem rstripDot_decomp (s : Str) :
    ∃ k, s = rstripDot s ++ List.replicate k '.' := by
  refine ⟨(s.reverse.takeWhile (fun c => c = '.')).length, ?_⟩
  have h3 : (s.reverse.takeWhile (fun c => c = '.')).reverse
      = List.replicate (s.reverse.takeWhile (fun c => c = '.')).length '.' := by
    apply List.eq_replicate_iff.mpr
    refine ⟨by simp, fun c hc => ?_⟩
    have := List.mem_takeWhile_imp (List.mem_reverse.mp hc)
    simpa using this
  unfold rstripDot
  conv_lhs => rw [← s.reverse_reverse,
    ← List.takeWhile_append_dropWhile (p := fun c => c = '.') (l := s.reverse)]
  rw [List.reverse_append, h3]

theorem rstripDot_last (s : Str) : (rstripDot s).getLast? ≠ some '.' := by
  unfold rstripDot
  rw [List.getLast?_reverse]
  intro h
  have hhead := List.head?_dropWhile_not (p := fun c => c = '.') (l := s.reverse)
  rw [h] at hhead
  simp at hhead

theorem pySplitAux_words : ∀ (s : Str) (acc : Str),
    (∀ c ∈ acc, pySpace c = false) →
    ∀ w ∈ pySplitAux s acc, w ≠ [] ∧ ∀ c ∈ w, pySpace c = false := by
  intro s
  induction s with
  | nil =>
    intro acc hacc w hw
    by_cases h : acc = []
    · simp [pySplitAux, h] at hw
    · simp only [pySplitAux, if_neg h, List.mem_singleton] at hw
      subst hw
      exact ⟨by simpa using h, fun c hc => hacc c (by simpa using hc)⟩
  | cons c rest ih =>
    intro acc hacc w hw
    simp only [pySplitAux] at hw
    split_ifs at hw with h1 h2
    · exact ih [] (by simp) w hw
    · rcases List.mem_cons.mp hw with rfl | hw2
      · exact ⟨by simpa using h2, fun c hc => hacc c (by simpa using hc)⟩
      · exact ih [] (by simp) w hw2
    · refine ih (c :: acc) ?_ w hw
      intro x hx
      rcases List.mem_cons.mp hx with rfl | hx2
      · simpa using h1
      · exact hacc x hx2

theorem pySplit_words (s : Str) :
    ∀ w ∈ pySplit s, w ≠ [] ∧ ∀ c ∈ w, pySpace c = false :=
  pySplitAux_words s [] (by simp)

/-- In a descending list, `find?` rejects every element larger than the
one it returns. -/
theorem find?_desc_gt : ∀ {l : List ℕ}, l.Sorted (· ≥ ·) → ∀ {p : ℕ → Bool} {x : ℕ},
    l.find? p = some x → ∀ y ∈ l, x < y → p y = false := by
  intro l
  induction l with
  | nil => intro _ p x hfind; simp at hfind
  | cons h t ih =>
    intro hsort p x hfind y hy hxy
    rcases hph : p h with _ | _
    · rw [List.find?_cons_of_neg _ (by simp [hph])] at hfind
      rcases List.mem_cons.mp hy with rfl | hyt
      · exact hph
      · exact ih hsort.of_cons hfind y hyt hxy
    · rw [List.find?_cons_of_pos _ hph] at hfind
      have hx : x = h := by simpa using hfind.symm
      subst hx
      rcases List.mem_cons.mp hy with rfl | hyt
      · omega
      · have := (List.sorted_cons.mp hsort).1 y hyt
        omega

theorem mem_insertDesc {x a : ℕ} : ∀ {l : List ℕ},
    (a ∈ insertDesc x l ↔ a = x ∨ a ∈ l) := by
  intro l
  induction l with
  | nil => simp [insertDesc]
  | cons y ys ih =>
    simp only [insertDesc]
    split_ifs with h
    · simp
    · simp only [List.mem_cons, ih]
      tauto

theorem mem_sortDesc {a : ℕ} : ∀ {l : List ℕ}, (a ∈ sortDesc l ↔ a ∈ l) := by
  intro l
  induction l with
  | nil => simp [sortDesc]
  | cons y ys ih =>
    simp only [sortDesc, List.foldr_cons] at *
    rw [mem_insertDesc, ih]
    simp

theorem insertDesc_sorted (x : ℕ) : ∀ {l : List ℕ}, l.Sorted (· ≥ ·) →
    (insertDesc x l).Sorted (· ≥ ·) := by
  intro l
  induction l with
  | nil => intro _; simp [insertDesc]
  | cons y ys ih =>
    intro hs
    rw [List.sorted_cons] at hs
    simp only [insertDesc]
    split_ifs with h
    · rw [List.sorted_cons]
      refine ⟨?_, List.sorted_cons.mpr hs⟩
      intro b hb
      rcases List.mem_cons.mp hb with rfl | hb2
      · exact h
      · exact le_trans (hs.1 b hb2) h
    · rw [List.sorted_cons]
      refine ⟨?_, ih hs.2⟩
      intro b hb
      rcases mem_insertDesc.mp hb with rfl | hb2
      · omega
      · exact hs.1 b hb2

theorem sortDesc_sorted : ∀ l : List ℕ, (sortDesc l).Sorted (· ≥ ·) := by
  intro l
  induction l with
  | nil => simp [sortDesc]
  | cons y ys ih =>
    simp only [sortDesc, List.foldr_cons] at *
    exact insertDesc_sorted y ih

/-- Characterization of the annotations emitted by the inner word scan:
each arises at a position `i` past both the loop index and the skip cursor,
whose normalized word is not a stop word, with the span length returned by
the longest-first search over the applicable candidate lengths. -/
theorem scanAux_mem {α : Type} (G : NerEnv α) (ctx : Str)
    (orgs ns : Option (List Str)) (rw : List Str) (coords : List ℕ)
    (words : List Str) :
    ∀ (fuel idx su : ℕ) (a : Annot α),
      a ∈ scanAux G ctx orgs ns rw coords words fuel idx su →
      ∃ i sp, idx ≤ i ∧ su ≤ i ∧
        G.stop_words (words.getD i []) = false ∧
        sp ∈ G.prefix_index (words.getD i []) ∧ i + sp ≤ words.length ∧
        (sortDesc ((G.prefix_index (words.getD i [])).filter
            (fun s => i + s ≤ words.length))).find?
          (fun s => !(G.ground (joinSpace ((rw.drop i).take s)) ctx orgs ns).isEmpty)
          = some sp ∧
        a = ⟨joinSpace ((rw.drop i).take sp),
             G.ground (joinSpace ((rw.drop i).take sp)) ctx orgs ns,
             coords.getD i 0,
             coords.getD (i + sp - 1) 0 + (rw.getD (i + sp - 1) []).length⟩ := by
  intro fuel
  induction fuel with
  | zero =>
    intro idx su a ha
    simp [scanAux] at ha
  | succ fuel ih =>
    intro idx su a ha
    simp only [scanAux] at ha
    split_ifs at ha with hskip hstop
    · obtain ⟨i, sp, h1, h2, hrest⟩ := ih (idx + 1) su a ha
      exact ⟨i, sp, by omega, h2, hrest⟩
    · obtain ⟨i, sp, h1, h2, hrest⟩ := ih (idx + 1) su a ha
      exact ⟨i, sp, by omega, h2, hrest⟩
    · split at ha
      next hfind =>
        obtain ⟨i, sp, h1, h2, hrest⟩ := ih (idx + 1) su a ha
        exact ⟨i, sp, by omega, h2, hrest⟩
      next sp hfind =>
        rcases List.mem_cons.mp ha with rfl | hatail
        · have hsp := mem_sortDesc.mp (List.mem_of_find?_eq_some hfind)
          obtain ⟨hmem, hle⟩ := List.mem_filter.mp hsp
          refine ⟨idx, sp, le_refl _, by omega, ?_, hmem, by simpa using hle,
            hfind, rfl⟩
          simpa using hstop
        · obtain ⟨i, sp', h1, h2, hrest⟩ := ih (idx + 1) (idx + sp) a hatail
          exact ⟨i, sp', by omega, by omega, hrest⟩

theorem words_length_eq {α : Type} (G : NerEnv α) (rw : List Str) :
    (rw.map G.normalize).length = rw.length := List.length_map rw G.normalize

theorem slice_length (rw : List Str) (i sp : ℕ) (h : i + sp ≤ rw.length) :
    ((rw.drop i).take sp).length = sp := by
  rw [List.length_take, List.length_drop]
  omega

theorem offSum_single (rw : List Str) (j : ℕ) (hj : j < rw.length) :
    offSum ((rw.drop j).take 1) = (rw.getD j []).length + 1 := by
  rw [List.drop_eq_getElem_cons hj]
  rw [List.take_succ_cons, List.take_zero]
  rw [List.getD_eq_getElem rw [] hj]
  simp [offSum]

/-- The end offset used by the scan is one less than the following word
coordinate. -/
theorem end_coord_eq (rw : List Str) (base : ℕ) (i sp : ℕ)
    (hsp : 1 ≤ sp) (hle : i + sp ≤ rw.length) :
    (wordCoords base rw).getD (i + sp - 1) 0 + (rw.getD (i + sp - 1) []).length + 1
      = (wordCoords base rw).getD (i + sp) 0 := by
  have hj : i + sp - 1 < rw.length := by omega
  have h1 := wordCoords_shift rw base (i + sp - 1) 1 (by omega)
  rw [offSum_single rw _ hj] at h1
  have h2 : i + sp - 1 + 1 = i + sp := by omega
  rw [h2] at h1
  omega

/-- The numeric facts of a single emitted annotation, relative to its
sentence: exclusive end offset, start bound, and sentence-length bound. -/
theorem processSentence_facts {α : Type} (G : NerEnv α)
    (hpos : ∀ w k, k ∈ G.prefix_index w → 1 ≤ k)
    (ctx : Str) (orgs ns : Option (List Str)) (s : Str) (base : ℕ)
    (a : Annot α) (ha : a ∈ processSentence G ctx orgs ns s base) :
    a.end_ = a.start + a.text.length ∧
    base ≤ a.start ∧ a.end_ ≤ base + s.length := by
  unfold processSentence at ha
  obtain ⟨i, sp, -, -, -, hmem, hlen, -, hform⟩ :=
    scanAux_mem G ctx orgs ns _ _ _ _ _ _ a ha
  set rw := pySplit (rstripDot s) with hrw
  rw [words_length_eq] at hlen
  have hsp : 1 ≤ sp := hpos _ _ hmem
  have hslice : ((rw.drop i).take sp).length = sp := slice_length rw i sp hlen
  have hslice_ne : (rw.drop i).take sp ≠ [] := by
    intro hnil
    rw [hnil] at hslice
    simp at hslice
    omega
  have hjoin := joinSpace_length _ hslice_ne
  have hshift := wordCoords_shift rw base i sp hlen
  have hend := end_coord_eq rw base i sp hsp hlen
  have hofftake : offSum ((rw.drop i).take sp) =
      (joinSpace ((rw.drop i).take sp)).length + 1 := hjoin.symm
  refine ⟨?_, ?_, ?_⟩
  · rw [hform]
    dsimp only
    omega
  · rw [hform]
    dsimp only
    have h0 : (wordCoords base rw).getD 0 0 = base := by
      rw [wordCoords_getD rw base 0 (by omega)]
      simp [offSum]
    conv_lhs => rw [← h0]
    exact wordCoords_mono rw base 0 i (by omega) (by omega)
  · rw [hform]
    dsimp only
    have hmono : (wordCoords base rw).getD (i + sp) 0 ≤
        (wordCoords base rw).getD rw.length 0 :=
      wordCoords_mono rw base (i + sp) rw.length hlen (le_refl _)
    have htotal : (wordCoords base rw).getD rw.length 0 = base + offSum rw := by
      rw [wordCoords_getD rw base rw.length (le_refl _)]
      simp
    have hsum : offSum rw ≤ (rstripDot s).length + 1 := offSum_pySplit _
    have hstriplen := rstripDot_length_le s
    omega

/-- Adjacent annotations emitted by the scan do not overlap. -/
theorem scanAux_chain {α : Type} (G : NerEnv α)
    (hpos : ∀ w k, k ∈ G.prefix_index w → 1 ≤ k)
    (ctx : Str) (orgs ns : Option (List Str)) (rw : List Str) (base : ℕ) :
    ∀ (fuel idx su : ℕ),
      List.Chain' (fun a b => a.end_ ≤ b.start)
        (scanAux G ctx orgs ns rw (wordCoords base rw) (rw.map G.normalize)
          fuel idx su) := by
  intro fuel
  induction fuel with
  | zero => intro idx su; simp [scanAux]
  | succ fuel ih =>
    intro idx su
    simp only [scanAux]
    split_ifs with hskip hstop
    · exact ih (idx + 1) su
    · exact ih (idx + 1) su
    · split
      · exact ih (idx + 1) su
      next sp hfind =>
        apply List.chain'_cons'.mpr
        refine ⟨?_, ih (idx + 1) (idx + sp)⟩
        intro y hy
        have hymem := List.mem_of_mem_head? hy
        obtain ⟨i2, sp2, hi1, hi2, -, hmem2, hlen2, -, hform2⟩ :=
          scanAux_mem G ctx orgs ns rw _ _ fuel (idx + 1) (idx + sp) y hymem
        have hsp := mem_sortDesc.mp (List.mem_of_find?_eq_some hfind)
        obtain ⟨hmem, hle0⟩ := List.mem_filter.mp hsp
        have hle : idx + sp ≤ (rw.map G.normalize).length := by simpa using hle0
        rw [words_length_eq] at hle hlen2
        have hsp1 : 1 ≤ sp := hpos _ _ hmem
        have hsp2 : 1 ≤ sp2 := hpos _ _ hmem2
        have hend := end_coord_eq rw base idx sp hsp1 hle
        rw [hform2]
        dsimp only
        have hmono := wordCoords_mono rw base (idx + sp) i2 (by omega) (by omega)
        omega

theorem annotateGo_start_lb {α : Type} (G : NerEnv α)
    (ctx : Str) (orgs ns : Option (List Str)) :
    ∀ (sentences : List Str) (coord : ℕ) (a : Annot α),
      a ∈ annotateGo G ctx orgs ns sentences coord → coord ≤ a.start := by
  intro sentences
  induction sentences with
  | nil => intro coord a ha; simp [annotateGo] at ha
  | cons s rest ih =>
    intro coord a ha
    simp only [annotateGo, List.mem_append] at ha
    rcases ha with ha | ha
    · unfold processSentence at ha
      obtain ⟨i, sp, -, -, -, -, hlen, -, hform⟩ :=
        scanAux_mem G ctx orgs ns _ _ _ _ _ _ a ha
      rw [words_length_eq] at hlen
      rw [hform]
      dsimp only
      have h0 : (wordCoords coord (pySplit (rstripDot s))).getD 0 0 = coord := by
        rw [wordCoords_getD _ coord 0 (by omega)]
        simp [offSum]
      conv_lhs => rw [← h0]
      exact wordCoords_mono _ coord 0 i (by omega) (by omega)
    · have := ih (coord + s.length + 1) a ha
      omega

theorem annotateGo_chain {α : Type} (G : NerEnv α)
    (hpos : ∀ w k, k ∈ G.prefix_index w → 1 ≤ k)
    (ctx : Str) (orgs ns : Option (List Str)) :
    ∀ (sentences : List Str) (coord : ℕ),
      List.Chain' (fun a b => a.end_ ≤ b.start)
        (annotateGo G ctx orgs ns sentences coord) := by
  intro sentences
  induction sentences with
  | nil => intro coord; simp [annotateGo]
  | cons s rest ih =>
    intro coord
    simp only [annotateGo]
    apply List.chain'_append.mpr
    refine ⟨?_, ih _, ?_⟩
    · unfold processSentence
      exact scanAux_chain G hpos ctx orgs ns _ coord _ 0 0
    · intro x hx y hy
      have hxm : x ∈ processSentence G ctx orgs ns s coord :=
        List.mem_of_mem_getLast? hx
      have hxe := (processSentence_facts G hpos ctx orgs ns s coord x hxm).2.2
      have hys := annotateGo_start_lb G ctx orgs ns rest (coord + s.length + 1) y
        (List.mem_of_mem_head? hy)
      omega

theorem annotate_mem {α : Type} (G : NerEnv α) (text : Str)
    (orgs ns : Option (List Str)) (ctxt : Option Str) (a : Annot α)
    (ha : a ∈ annotate G text orgs ns ctxt) :
    ∃ s ∈ G.sent_split text, ∃ base,
      a ∈ processSentence G (ctxt.getD text) orgs ns s base := by
  unfold annotate at ha
  suffices h : ∀ (sentences : List Str) (coord : ℕ),
      a ∈ annotateGo G (ctxt.getD text) orgs ns sentences coord →
      ∃ s ∈ sentences, ∃ base,
        a ∈ processSentence G (ctxt.getD text) orgs ns s base from
    h _ 0 ha
  intro sentences
  induction sentences with
  | nil => intro coord h; simp [annotateGo] at h
  | cons s rest ih =>
    intro coord h
    simp only [annotateGo, List.mem_append] at h
    rcases h with h | h
    · exact ⟨s, by simp, coord, h⟩
    · obtain ⟨s2, hs2, base, hmem⟩ := ih (coord + s.length + 1) h
      exact ⟨s2, by simp [hs2], base, hmem⟩

theorem getD_map_normalize {α : Type} (G : NerEnv α) (rw : List Str) (i : ℕ)
    (hi : i < rw.length) :
    (rw.map G.normalize).getD i [] = G.normalize (rw.getD i []) := by
  rw [List.getD_eq_getElem _ _ (by simpa using hi),
    List.getD_eq_getElem _ _ hi, List.getElem_map]

theorem chain_start_of_chain_end {α : Type} : ∀ (l : List (Annot α)),
    List.Chain' (fun a b => a.end_ ≤ b.start) l →
    (∀ a ∈ l, a.start ≤ a.end_) →
    List.Chain' (fun a b => a.start ≤ b.start) l := by
  intro l
  induction l with
  | nil => intro _ _; simp
  | cons x t ih =>
    intro hc hp
    cases t with
    | nil => simp
    | cons y t2 =>
      rw [List.chain'_cons] at hc ⊢
      refine ⟨le_trans (hp x (by simp)) hc.1, ih hc.2 ?_⟩
      intro b hb
      exact hp b (by simp [hb])



theorem slice_cons (rw : List Str) (i sp : ℕ) (hsp : 1 ≤ sp)
    (h : i + sp ≤ rw.length) :
    (rw.drop i).take sp = rw.getD i [] :: ((rw.drop (i + 1)).take (sp - 1)) := by
  have hi : i < rw.length := by omega
  have hsp2 : sp = sp - 1 + 1 := by omega
  conv_lhs => rw [List.drop_eq_getElem_cons hi, hsp2, List.take_succ_cons]
  rw [List.getD_eq_getElem rw [] hi]

theorem bratRows_some {α : Type} (getCurie : α → Str) (et : Str) (inc : Bool) :
    ∀ (anns : List (Annot α)) (idx : ℤ), (∀ a ∈ anns, a.matches_ ≠ []) →
      ∃ rows, bratRows getCurie et inc idx anns = some rows ∧
        rows.length = 2 * anns.length := by
  intro anns
  induction anns with
  | nil => intro idx _; exact ⟨[], rfl, rfl⟩
  | cons a rest ih =>
    intro idx h
    have hne : a.matches_ ≠ [] := h a (by simp)
    obtain ⟨m, ms, hm⟩ := List.exists_cons_of_ne_nil hne
    obtain ⟨rows, hrows, hlen⟩ := ih (idx + 1) (fun b hb => h b (by simp [hb]))
    simp only [bratRows, hm, List.head?_cons, hrows, Option.map_some']
    exact ⟨_, rfl, by simp only [List.length_cons, hlen]; omega⟩


/-- C3: greedy longest-match-wins.  Every annotation emitted by `annotate`
arises at a word position i with a span length sp drawn from the dictionary
index entry of the word at i and fitting in the sentence, its matches are
the non-empty resolver result for that span, and every candidate length
sp2 > sp present in the index entry and fitting in the sentence yields an
empty resolver result (the longest-first search in the code tries exactly
those candidates before sp and stops at the first success, so no shorter
candidate is tried after a longer one succeeds). -/
theorem c3_longest_match {α : Type} (G : NerEnv α)
    (text : Str) (orgs ns : Option (List Str)) (ctxt : Option Str)
    (a : Annot α) (ha : a ∈ annotate G text orgs ns ctxt) :
    ∃ s ∈ G.sent_split text, ∃ base i sp,
      sp ∈ G.prefix_index (((pySplit (rstripDot s)).map G.normalize).getD i []) ∧
      i + sp ≤ (pySplit (rstripDot s)).length ∧
      a.text = joinSpace (((pySplit (rstripDot s)).drop i).take sp) ∧
      a.start = (wordCoords base (pySplit (rstripDot s))).getD i 0 ∧
      a.matches_ = G.ground a.text (ctxt.getD text) orgs ns ∧
      a.matches_ ≠ [] ∧
      ∀ sp2 ∈ G.prefix_index (((pySplit (rstripDot s)).map G.normalize).getD i []),
        i + sp2 ≤ (pySplit (rstripDot s)).length → sp < sp2 →
        G.ground (joinSpace (((pySplit (rstripDot s)).drop i).take sp2))
          (ctxt.getD text) orgs ns = [] := by
  obtain ⟨s, hs, base, hmem⟩ := annotate_mem G text orgs ns ctxt a ha
  unfold processSentence at hmem
  obtain ⟨i, sp, -, -, -, hidx, hlen, hfind, hform⟩ :=
    scanAux_mem G _ orgs ns _ _ _ _ _ _ a hmem
  rw [words_length_eq] at hlen
  refine ⟨s, hs, base, i, sp, hidx, hlen, by rw [hform], by rw [hform], ?_, ?_, ?_⟩
  · rw [hform]
  · have hp := List.find?_some hfind
    rw [hform]
    dsimp only
    intro hnil
    rw [hnil] at hp
    simp at hp
  · intro sp2 hmem2 hle2 hlt
    have hsorted := sortDesc_sorted ((G.prefix_index
      (((pySplit (rstripDot s)).map G.normalize).getD i [])).filter
      (fun s2 => i + s2 ≤ ((pySplit (rstripDot s)).map G.normalize).length))
    have hmem2d : sp2 ∈ sortDesc ((G.prefix_index
        (((pySplit (rstripDot s)).map G.normalize).getD i [])).filter
        (fun s2 => i + s2 ≤ ((pySplit (rstripDot s)).map G.normalize).length)) := by
      apply mem_sortDesc.mpr
      apply List.mem_filter.mpr
      refine ⟨hmem2, ?_⟩
      rw [words_length_eq]
      simpa using hle2
    have hfalse := find?_desc_gt hsorted hfind sp2 hmem2d hlt
    rw [← List.isEmpty_iff]
    simpa using hfalse

/-- C4: for every input text and resolver with positive span lengths, the
annotations returned by `annotate` are non-overlapping and ordered: each
adjacent pair satisfies end ≤ start of the next, and the start offsets are
sorted. -/
theorem c4_nonoverlap_sorted {α : Type} (G : NerEnv α)
    (hpos : ∀ w k, k ∈ G.prefix_index w → 1 ≤ k)
    (text : Str) (orgs ns : Option (List Str)) (ctxt : Option Str) :
    List.Chain' (fun a b => a.end_ ≤ b.start) (annotate G text orgs ns ctxt) ∧
    List.Chain' (fun a b => a.start ≤ b.start) (annotate G text orgs ns ctxt) := by
  have hchain : List.Chain' (fun a b => a.end_ ≤ b.start)
      (annotate G text orgs ns ctxt) := by
    unfold annotate
    exact annotateGo_chain G hpos (ctxt.getD text) orgs ns (G.sent_split text) 0
  refine ⟨hchain, chain_start_of_chain_end _ hchain ?_⟩
  intro a ha
  obtain ⟨s, -, base, hmem⟩ := annotate_mem G text orgs ns ctxt a ha
  have h1 := (processSentence_facts G hpos (ctxt.getD text) orgs ns s base a hmem).1
  omega

/-- A whitespace-free prefix is scanned into the accumulator by the split
helper. -/
theorem pySplitAux_nonspace_prefix : ∀ (w : Str), (∀ c ∈ w, pySpace c = false) →
    ∀ (s acc : Str), pySplitAux (w ++ s) acc = pySplitAux s (w.reverse ++ acc) := by
  intro w
  induction w with
  | nil => intro _ s acc; simp
  | cons c w2 ih =>
    intro hsf s acc
    have hc : pySpace c = false := hsf c (by simp)
    simp only [List.cons_append, pySplitAux, hc, Bool.false_eq_true, if_false]
    rw [List.append_eq, ih (fun x hx => hsf x (by simp [hx])) s (c :: acc)]
    simp

/-- The first word recovered by splitting a space-joined word list is its
head, provided the head is a non-empty whitespace-free word. -/
theorem pySplit_joinSpace_head (w0 : Str) (ws : List Str)
    (hne : w0 ≠ []) (hsf : ∀ c ∈ w0, pySpace c = false) :
    (pySplit (joinSpace (w0 :: ws))).head? = some w0 := by
  cases ws with
  | nil =>
    have h := pySplitAux_nonspace_prefix w0 hsf [] []
    rw [List.append_nil] at h
    have hj : joinSpace [w0] = w0 := rfl
    unfold pySplit
    rw [hj, h]
    simp [pySplitAux, hne]
  | cons w1 ws2 =>
    have hj : joinSpace (w0 :: w1 :: ws2) = w0 ++ (' ' :: joinSpace (w1 :: ws2)) := rfl
    unfold pySplit
    rw [hj, pySplitAux_nonspace_prefix w0 hsf _ []]
    simp only [List.append_nil]
    simp [pySplitAux, pySpace, hne]

theorem annotate_first_word_not_stop {α : Type} (G : NerEnv α)
    (hpos : ∀ w k, k ∈ G.prefix_index w → 1 ≤ k)
    (text : Str) (orgs ns : Option (List Str)) (ctxt : Option Str)
    (a : Annot α) (ha : a ∈ annotate G text orgs ns ctxt) :
    ∃ w0 ws, a.text = joinSpace (w0 :: ws) ∧ w0 ≠ [] ∧
      (∀ c ∈ w0, pySpace c = false) ∧
      (pySplit a.text).head? = some w0 ∧
      G.stop_words (G.normalize w0) = false := by
  obtain ⟨s, -, base, hmem⟩ := annotate_mem G text orgs ns ctxt a ha
  unfold processSentence at hmem
  obtain ⟨i, sp, -, -, hstop, hidx, hlen, -, hform⟩ :=
    scanAux_mem G _ orgs ns _ _ _ _ _ _ a hmem
  rw [words_length_eq] at hlen
  have hsp : 1 ≤ sp := hpos _ _ hidx
  have hi : i < (pySplit (rstripDot s)).length := by omega
  have hw0mem : (pySplit (rstripDot s)).getD i [] ∈ pySplit (rstripDot s) := by
    rw [List.getD_eq_getElem _ [] hi]
    exact List.getElem_mem _
  obtain ⟨hne, hsf⟩ := pySplit_words (rstripDot s) _ hw0mem
  have htext : a.text = joinSpace ((pySplit (rstripDot s)).getD i [] ::
      (((pySplit (rstripDot s)).drop (i + 1)).take (sp - 1))) := by
    rw [hform]
    dsimp only
    rw [slice_cons _ i sp hsp hlen]
  refine ⟨(pySplit (rstripDot s)).getD i [],
    (((pySplit (rstripDot s)).drop (i + 1)).take (sp - 1)),
    htext, hne, hsf, ?_, ?_⟩
  · rw [htext]
    exact pySplit_joinSpace_head _ _ hne hsf
  · rw [← getD_map_normalize G _ i hi]
    exact hstop


/-- C5: lexicographic dominance of the scoring composition.  For any two
`Match` values whose six sub-score tuples (shortAbbr, mixed, exact, acic,
combo, dash) compare lexicographically, the mixed-radix composition
raw = ((((shortAbbr*3 + mixed)*2 + exact)*3 + acic)*5 + combo)*3 + dash
normalized by 539 ranks them the same way.  (The composition is stated on
the score_* sub-score methods the class defines; the dispatch slip of the
shipped score_string_match is recorded under C1.) -/
theorem c5_lex_dominance (m1 m2 : Match)
    (h : LexGt (subScores m1) (subScores m2)) :
    score_value m2 < score_value m1 :=
  score_value_lt_of_raw (raw_score_lex m1 m2 h)

/-- C5 witness: a fully exact match lexicographically dominates the
mek/MEK case flip and indeed scores strictly higher. -/
theorem c5_witness :
    LexGt (subScores matchExactMEK) (subScores matchCaseFlip) ∧
    score_value matchCaseFlip < score_value matchExactMEK := by
  have hlex : LexGt (subScores matchExactMEK) (subScores matchCaseFlip) := by
    left
    decide
  exact ⟨hlex, c5_lex_dominance matchExactMEK matchCaseFlip hlex⟩

/-- C6 counterexample: align("a ", "a ", sentenceInitial = true) satisfies
the normalization-equality precondition, yet the walk raises an IndexError:
after the synchronized space consumption empties both suffixes, the source
evaluates query_suffix[0] for the dash check.  This refutes the claimed
totality, in particular the "including when a synchronized space
consumption exhausts one of the strings" part. -/
theorem c6_counterexample :
    generate_match textEnvSpec sASpace sASpace true =
      Except.error AlignError.indexError ∧
    textEnvSpec.normalize sASpace = textEnvSpec.normalize sASpace :=
  ⟨rfl, rfl⟩

/-- C6 (amended): on every normalization-equal input pair whose
canonicalized strings do not end with a space character, the alignment walk
terminates with every character access in bounds and `generate_match`
returns a Match. -/
theorem c6_walk_total (E : TextEnv) (query ref : Str) (bos : Bool)
    (hnorm : E.normalize query = E.normalize ref)
    (hq : noTrailingSpace (canon E query))
    (hr : noTrailingSpace (canon E ref)) :
    ∃ m, generate_match E query ref bos = Except.ok m :=
  generate_match_total E query ref bos hnorm hq hr


/-- C6 witness: totality of the walk on the concrete space-free input. -/
theorem c6_witness :
    (textEnvSpec.normalize sAB = textEnvSpec.normalize sAB ∧
      noTrailingSpace (canon textEnvSpec sAB)) ∧
    ∃ m, generate_match textEnvSpec sAB sAB true = Except.ok m :=
  ⟨⟨rfl, by unfold noTrailingSpace; decide⟩,
   c6_walk_total textEnvSpec sAB sAB true rfl
     (by unfold noTrailingSpace; decide) (by unfold noTrailingSpace; decide)⟩

/-- C8 counterexample: the inputs "x " and "x " are normalization-equal,
yet `generate_match` does not return a Match: it raises an IndexError in
the walk, refuting the claim that every normalization-equal pair yields a
Match. -/
theorem c8_counterexample :
    textEnvSpec.normalize sXSpace = textEnvSpec.normalize sXSpace ∧
    generate_match textEnvSpec sXSpace sXSpace true =
      Except.error AlignError.indexError :=
  ⟨rfl, rfl⟩

/-- C8 (amended): `generate_match` fails with the ConsistencyError exactly
when the normalized forms of query and ref differ; on normalization-equal
inputs it never raises that error, and it returns a Match whenever the
canonicalized strings do not end with a space (otherwise the walk can hit
an IndexError, see the counterexample). -/
theorem c8_consistency_contract (E : TextEnv) (query ref : Str) (bos : Bool) :
    (generate_match E query ref bos = Except.error (.consistency query ref) ↔
      E.normalize query ≠ E.normalize ref) ∧
    (E.normalize query = E.normalize ref →
      noTrailingSpace (canon E query) → noTrailingSpace (canon E ref) →
      ∃ m, generate_match E query ref bos = Except.ok m) :=
  ⟨generate_match_consistency_iff E query ref bos,
   fun hn hq hr => generate_match_total E query ref bos hn hq hr⟩

/-- C8 witness: the contract applied to a concrete normalization-equal
pair. -/
theorem c8_witness :
    textEnvSpec.normalize sAB = textEnvSpec.normalize sAB ∧
    ∃ m, generate_match textEnvSpec sAB sAB false = Except.ok m :=
  ⟨rfl, (c8_consistency_contract textEnvSpec sAB sAB false).2 rfl
    (by unfold noTrailingSpace; decide) (by unfold noTrailingSpace; decide)⟩

/-- C1: the claim says score(match) evaluates the six sub-scores and returns
a float in [0, 1], never failing.  The code is wrong: the term list of
`score_string_match` reads the attributes `get_short_abbr`, `get_mixed`,
`get_exact`, `get_acic`, `get_combo`, `get_dash` of the `Match` object, but
the class defines only the `score_*` methods, so every call fails with an
AttributeError at the first lookup and no score is ever produced. -/
theorem c1_score_string_match_always_fails (m : Match) :
    score_string_match m = Except.error "get_short_abbr" := rfl

/-- C2 counterexample: on the text "MEK phosphorylates ERK", the MEK
annotation has end = 3, which differs from the offset 2 = start + len - 1
of its last included character, refuting the claim that end equals the
offset of the last included character. -/
theorem c2_counterexample :
    ∃ a ∈ annotate E1 tMEK none none none,
      a.end_ ≠ a.start + a.text.length - 1 := by
  refine ⟨⟨"MEK".toList, [1], 0, 3⟩, by decide, by decide⟩

/-- C2 (amended): for every annotation emitted by `annotate` under a
resolver whose span lengths are positive, the end field is one past the
offset of the last included character, i.e. end = start + len(text)
(the usual exclusive-end convention), and start is the offset of the first
character. -/
theorem c2_end_exclusive {α : Type} (G : NerEnv α)
    (hpos : ∀ w k, k ∈ G.prefix_index w → 1 ≤ k)
    (text : Str) (orgs ns : Option (List Str)) (ctxt : Option Str) :
    ∀ a ∈ annotate G text orgs ns ctxt, a.end_ = a.start + a.text.length := by
  intro a ha
  obtain ⟨s, -, base, hmem⟩ := annotate_mem G text orgs ns ctxt a ha
  exact (processSentence_facts G hpos (ctxt.getD text) orgs ns s base a hmem).1

theorem e1_pos : ∀ w k, k ∈ E1.prefix_index w → 1 ≤ k := by
  intro w k hk
  simp only [E1] at hk
  split_ifs at hk <;> simp_all

theorem e2_pos : ∀ w k, k ∈ E2.prefix_index w → 1 ≤ k := by
  intro w k hk
  simp only [E2] at hk
  split_ifs at hk <;> simp_all

/-- C2 witness: the amended statement applied to the concrete MEK/ERK
scenario. -/
theorem c2_witness :
    (∀ w k, k ∈ E1.prefix_index w → 1 ≤ k) ∧
    (∀ a ∈ annotate E1 tMEK none none none,
      a.end_ = a.start + a.text.length) :=
  ⟨e1_pos, c2_end_exclusive E1 e1_pos tMEK none none none⟩

/-- C3 witness: the longest-match characterization applied to the MEK
annotation of the concrete scenario. -/
theorem c3_witness :
    (⟨"MEK".toList, [1], 0, 3⟩ : Annot ℕ) ∈ annotate E1 tMEK none none none ∧
    ∃ s ∈ E1.sent_split tMEK, ∃ base i sp,
      sp ∈ E1.prefix_index (((pySplit (rstripDot s)).map E1.normalize).getD i []) ∧
      i + sp ≤ (pySplit (rstripDot s)).length ∧
      (⟨"MEK".toList, [1], 0, 3⟩ : Annot ℕ).text =
        joinSpace (((pySplit (rstripDot s)).drop i).take sp) ∧
      (⟨"MEK".toList, [1], 0, 3⟩ : Annot ℕ).start =
        (wordCoords base (pySplit (rstripDot s))).getD i 0 ∧
      (⟨"MEK".toList, [1], 0, 3⟩ : Annot ℕ).matches_ =
        E1.ground (⟨"MEK".toList, [1], 0, 3⟩ : Annot ℕ).text
          ((none : Option Str).getD tMEK) none none ∧
      (⟨"MEK".toList, [1], 0, 3⟩ : Annot ℕ).matches_ ≠ [] ∧
      ∀ sp2 ∈ E1.prefix_index
          (((pySplit (rstripDot s)).map E1.normalize).getD i []),
        i + sp2 ≤ (pySplit (rstripDot s)).length → sp < sp2 →
        E1.ground (joinSpace (((pySplit (rstripDot s)).drop i).take sp2))
          ((none : Option Str).getD tMEK) none none = [] :=
  ⟨by decide, c3_longest_match E1 tMEK none none none _ (by decide)⟩

/-- C4 witness: non-overlap and ordering on the concrete MEK/ERK
scenario. -/
theorem c4_witness :
    (∀ w k, k ∈ E1.prefix_index w → 1 ≤ k) ∧
    List.Chain' (fun a b => a.end_ ≤ b.start)
      (annotate E1 tMEK none none none) ∧
    List.Chain' (fun a b => a.start ≤ b.start)
      (annotate E1 tMEK none none none) :=
  ⟨e1_pos, c4_nonoverlap_sorted E1 e1_pos tMEK none none none⟩

/-- C7 counterexample: the sentence "c.." has two trailing periods and the
code strips both (Python rstrip removes every trailing period), not exactly
one as the claim states. -/
theorem c7_counterexample :
    rstripDot ("c..".toList) ≠ stripOneDot ("c..".toList) ∧
    rstripDot ("c..".toList) = "c".toList ∧
    stripOneDot ("c..".toList) = "c.".toList := by
  refine ⟨?_, by decide, ?_⟩
  · intro h
    rw [show rstripDot ("c..".toList) = "c".toList from by decide] at h
    rw [show stripOneDot ("c..".toList) = "c.".toList from by decide] at h
    exact absurd h (by decide)
  · unfold stripOneDot
    decide

/-- C7 (amended): per-sentence preprocessing of `annotate` strips every
trailing period (not exactly one), splits the result into non-empty
whitespace-free raw words on whitespace, and the word coordinate list
equals the sentence base offset plus the prefix sum of (length + 1) over
the preceding words. -/
theorem c7_preprocessing (s : Str) (base : ℕ) :
    (∃ k, s = rstripDot s ++ List.replicate k '.') ∧
    (rstripDot s).getLast? ≠ some '.' ∧
    (∀ w ∈ pySplit (rstripDot s), w ≠ [] ∧ ∀ c ∈ w, pySpace c = false) ∧
    (∀ i, i ≤ (pySplit (rstripDot s)).length →
      (wordCoords base (pySplit (rstripDot s))).getD i 0 =
        base + offSum ((pySplit (rstripDot s)).take i)) :=
  ⟨rstripDot_decomp s, rstripDot_last s, pySplit_words _,
   fun i hi => wordCoords_getD _ base i hi⟩

/-- C7 witness: the coordinate formula evaluated at index 2 of a concrete
sentence with base offset 5. -/
theorem c7_witness :
    (wordCoords 5 (pySplit (rstripDot ("MEK phosphorylates ERK.".toList)))).getD 2 0
      = 5 + offSum ((pySplit (rstripDot ("MEK phosphorylates ERK.".toList))).take 2) :=
  (c7_preprocessing ("MEK phosphorylates ERK.".toList) 5).2.2.2 2 (by decide)

/-- C9: for every list of N annotations with non-empty match lists and
every offset parameter, `get_brat` emits exactly 2N rows (two per
annotation), joined by single newlines with one trailing newline, and an
offset of 0 or less is clamped so the first emitted index is
max(1, offset). -/
theorem c9_brat_export {α : Type} (getCurie : α → Str) (anns : List (Annot α))
    (et : Str) (off : ℤ) (inc : Bool)
    (h : ∀ a ∈ anns, a.matches_ ≠ []) :
    ∃ rows, bratRows getCurie et inc (max 1 off) anns = some rows ∧
      rows.length = 2 * anns.length ∧
      get_brat getCurie anns et off inc = some (joinNewline rows ++ ['\n']) ∧
      (off ≤ 1 → get_brat getCurie anns et off inc =
        get_brat getCurie anns et 1 inc) := by
  obtain ⟨rows, hrows, hlen⟩ := bratRows_some getCurie et inc anns (max 1 off) h
  refine ⟨rows, hrows, hlen, ?_, ?_⟩
  · unfold get_brat
    rw [hrows]
    rfl
  · intro hoff
    unfold get_brat
    rw [max_eq_left hoff]
    rw [show max (1 : ℤ) 1 = 1 from rfl]

/-- C9 witness: the export shape on a concrete one-annotation list with a
negative offset. -/
theorem c9_witness :
    (∀ a ∈ ([⟨"x".toList, [5], 0, 1⟩] : List (Annot ℕ)), a.matches_ ≠ []) ∧
    ∃ rows, bratRows (fun _ => "q:1".toList) "Entity".toList true
        (max 1 (-3 : ℤ)) ([⟨"x".toList, [5], 0, 1⟩] : List (Annot ℕ)) = some rows ∧
      rows.length = 2 * ([⟨"x".toList, [5], 0, 1⟩] : List (Annot ℕ)).length ∧
      get_brat (fun _ => "q:1".toList) ([⟨"x".toList, [5], 0, 1⟩] : List (Annot ℕ))
        "Entity".toList (-3) true = some (joinNewline rows ++ ['\n']) ∧
      ((-3 : ℤ) ≤ 1 → get_brat (fun _ => "q:1".toList)
          ([⟨"x".toList, [5], 0, 1⟩] : List (Annot ℕ)) "Entity".toList (-3) true =
        get_brat (fun _ => "q:1".toList)
          ([⟨"x".toList, [5], 0, 1⟩] : List (Annot ℕ)) "Entity".toList 1 true) :=
  ⟨by decide, c9_brat_export (fun _ => "q:1".toList) _ _ (-3) true (by decide)⟩

/-- C10: the normalized first word of every emitted annotation span is not
a stop word, because the stop-word filter applies at candidate span-start
positions: the span text splits as a non-empty whitespace-free first word
w0 followed by the rest, w0 is literally the head of the whitespace split
of the span text, and its normalization passes the stop-word filter.  No
such guarantee holds for later words of a multi-word span, witnessed by a
concrete scan in which the second word of an accepted three-word span is
the stop word "of". -/
theorem c10_stop_word_filter :
    (∀ (α : Type) (G : NerEnv α), (∀ w k, k ∈ G.prefix_index w → 1 ≤ k) →
      ∀ (text : Str) (orgs ns : Option (List Str)) (ctxt : Option Str)
        (a : Annot α), a ∈ annotate G text orgs ns ctxt →
        ∃ w0 ws, a.text = joinSpace (w0 :: ws) ∧ w0 ≠ [] ∧
          (∀ c ∈ w0, pySpace c = false) ∧
          (pySplit a.text).head? = some w0 ∧
          G.stop_words (G.normalize w0) = false) ∧
    (∃ a ∈ annotate E2 tAlpha none none none, ∃ w0 w1 ws,
      a.text = joinSpace (w0 :: w1 :: ws) ∧
      E2.stop_words (E2.normalize w1) = true) := by
  constructor
  · intro α G hpos text orgs ns ctxt a ha
    exact annotate_first_word_not_stop G hpos text orgs ns ctxt a ha
  · exact ⟨⟨"alpha of beta".toList, [1], 0, 13⟩, by decide,
      "alpha".toList, "of".toList, ["beta".toList], by decide, by decide⟩

/-- C10 witness: the first-word guarantee applied to the concrete
stop-word scenario. -/
theorem c10_witness :
    (∀ w k, k ∈ E2.prefix_index w → 1 ≤ k) ∧
    ∃ w0 ws, (⟨"alpha of beta".toList, [1], 0, 13⟩ : Annot ℕ).text =
        joinSpace (w0 :: ws) ∧ w0 ≠ [] ∧
      (∀ c ∈ w0, pySpace c = false) ∧
      (pySplit (⟨"alpha of beta".toList, [1], 0, 13⟩ : Annot ℕ).text).head?
        = some w0 ∧
      E2.stop_words (E2.normalize w0) = false :=
  ⟨e2_pos, c10_stop_word_filter.1 ℕ E2 e2_pos tAlpha none none none
    ⟨"alpha of beta".toList, [1], 0, 13⟩ (by decide)⟩
